import Mathlib

/-!
Shallow embedding of `src/common_coin.rs` (the hbbft common-coin algorithm)
and proofs of the specification claims about it.

Modelling conventions:
* `NodeUid` and the nonce type `T` (generic in the source, `NodeUid: Ord`,
  `T: AsRef<[u8]>`) are instantiated with `Nat`; signature shares and
  signatures (opaque crypto values from the `crypto` crate) are also `Nat`.
* `BTreeMap<NodeUid, SignatureShare>` is modelled as an association list
  kept strictly sorted by key (`mapInsert` replaces an existing binding,
  exactly like `BTreeMap::insert`).
* Rust methods take `&mut self` and return `Result<_>`; on an `Err` return,
  the mutations performed before the error stick.  Each method is therefore
  embedded as a state-passing function returning
  `Except Error α × CommonCoin` — the pair of the `Result` and the final
  state of `self`.
* `debug!` / `error!` logging has no semantic content and is dropped.
-/

namespace HB

/-- Modelled from the spec: the fault kinds of the `fault_log` module (not
under `src/`); only `UnverifiedSignatureShareSender` is used by this core. -/
inductive FaultKind where
  | unverifiedSignatureShareSender
deriving DecidableEq, Repr

/-- Modelled from the spec: `FaultLog` (fault sink accepting
`(participant, faultKind)` records, accumulated per call). -/
abbrev FaultLog := List (Nat × FaultKind)

/-- Modelled from the spec: `FaultLog::new()` — the empty fault log. -/
def FaultLog.new : FaultLog := []

/-- Modelled from the spec: `FaultLog::init(id, kind)` — a one-entry log. -/
def FaultLog.init (id : Nat) (kind : FaultKind) : FaultLog := [(id, kind)]

/-- Modelled from the spec: `messaging::Step` — the per-call result, holding
the produced outputs and the fault records of the call. -/
structure Step where
  output : List Bool
  fault_log : FaultLog
deriving DecidableEq, Repr

/-- The error type generated by the `error_chain!` block of
`common_coin.rs`: the two local kinds plus the wrapping variant for
underlying crypto-layer failures. -/
inductive Error where
  | crypto (e : Nat)
  | unknownSender
  | verificationFailed
deriving DecidableEq, Repr

/-- `CommonCoinMessage(SignatureShare)` — the single wire message type. -/
structure CommonCoinMessage where
  sig : Nat
deriving DecidableEq, Repr

/-- Modelled from the spec: `messaging::NetworkInfo` (not under `src/`), the
shared read-only committee/key-info handle.  The committee is the list
`all_uids` of validator identities; `node_index` is the position in that
list and `public_key_share` is defined through it, so a participant has a
public key share exactly when it has a numeric index (both are views of the
same key mapping).  The threshold-crypto operations (share verification,
signing, combination, aggregate verification, parity) are opaque function
fields, since the crypto engine is an external collaborator. -/
structure NetworkInfo where
  our_uid : Nat
  all_uids : List Nat
  num_faulty : Nat
  is_validator : Bool
  pk_verify : Nat → Nat → Nat → Bool
  sign : Nat → Nat
  combine : List (Nat × Nat) → Except Nat Nat
  main_verify : Nat → Nat → Bool
  sig_parity : Nat → Bool

/-- Modelled from the spec: `indexOf(participant) -> optional numeric index`
— the position of the participant in the committee list. -/
def NetworkInfo.node_index (ni : NetworkInfo) (id : Nat) : Option Nat :=
  ni.all_uids.findIdx? (fun x => x == id)

/-- Modelled from the spec: `publicKeyShareOf(participant) -> optional
verifier`; present exactly for committee members (we return the participant
id itself as the opaque key value, verification goes through `pk_verify`). -/
def NetworkInfo.public_key_share (ni : NetworkInfo) (id : Nat) : Option Nat :=
  (ni.node_index id).map (fun _ => id)

/-- Sorted-association-list model of `BTreeMap::insert`: replaces the
binding of an existing key, otherwise inserts at the sorted position. -/
def mapInsert (k v : Nat) : List (Nat × Nat) → List (Nat × Nat)
  | [] => [(k, v)]
  | (k', v') :: rest =>
    if k < k' then (k, v) :: (k', v') :: rest
    else if k = k' then (k, v) :: rest
    else (k', v') :: mapInsert k v rest

/-- Association-list lookup (model of `BTreeMap` key lookup). -/
def mapLookup (k : Nat) : List (Nat × Nat) → Option Nat
  | [] => none
  | (k', v) :: rest => if k = k' then some v else mapLookup k rest

/-- Collecting an iterator of pairs into a `BTreeMap`: repeated inserts. -/
def mapFromList (l : List (Nat × Nat)) : List (Nat × Nat) :=
  l.foldl (fun m p => mapInsert p.1 p.2 m) []

/-- The state of `CommonCoin<NodeUid, T>` (`src/common_coin.rs`). -/
structure CommonCoin where
  netinfo : NetworkInfo
  nonce : Nat
  output : Option Bool
  messages : List Nat
  received_shares : List (Nat × Nat)
  had_input : Bool
  terminated : Bool

/-- `CommonCoin::new(netinfo, nonce)`. -/
def CommonCoin.new (netinfo : NetworkInfo) (nonce : Nat) : CommonCoin :=
  { netinfo := netinfo
    nonce := nonce
    output := none
    messages := []
    received_shares := []
    had_input := false
    terminated := false }

/-- `CommonCoin::step(fault_log)`: wraps `self.output.take()` and the fault
log of the call into a `Step`; taking the output clears it. -/
def step (c : CommonCoin) (fault_log : FaultLog) : Except Error Step × CommonCoin :=
  (Except.ok { output := c.output.toList, fault_log := fault_log },
   { c with output := none })

/-- The `BTreeMap<&u64, &SignatureShare>` built by `combine_and_verify_sig`:
each stored sender id is mapped to its committee index (the `.unwrap()` on
`node_index` is modelled by `Option.getD 0`; it is proved below never to
fall back in a reachable state), and the result is keyed by index. -/
def indexed_shares (c : CommonCoin) : List (Nat × Nat) :=
  mapFromList (c.received_shares.map (fun p => ((c.netinfo.node_index p.1).getD 0, p.2)))

/-- `CommonCoin::combine_and_verify_sig`: combines the stored shares
(keyed by committee index) into a group signature and verifies it against
the nonce with the aggregate public key; a combination failure propagates
as a wrapped crypto error, a failed verification as `VerificationFailed`. -/
def combine_and_verify_sig (c : CommonCoin) : Except Error Nat :=
  match c.netinfo.combine (indexed_shares c) with
  | Except.error e => Except.error (Error.crypto e)
  | Except.ok sig =>
    if ! c.netinfo.main_verify sig c.nonce then
      Except.error Error.verificationFailed
    else
      Except.ok sig

/-- `CommonCoin::try_output`: if input was given and more than `num_faulty`
shares are stored, combine and verify them; on success the output becomes
the parity of the signature and the instance terminates. -/
def try_output (c : CommonCoin) : Except Error Unit × CommonCoin :=
  if c.had_input && decide (c.received_shares.length > c.netinfo.num_faulty) then
    match combine_and_verify_sig c with
    | Except.error e => (Except.error e, c)
    | Except.ok sig =>
      (Except.ok (),
       { c with output := some (c.netinfo.sig_parity sig), terminated := true })
  else
    (Except.ok (), c)

/-- `CommonCoin::handle_share(sender_id, share)`: an unknown sender is a
fatal `UnknownSender`; a share failing verification against the sender's
public key share yields a one-entry fault log and is dropped; a valid share
is stored (overwriting) and output is attempted. -/
def handle_share (c : CommonCoin) (sender_id share : Nat) :
    Except Error FaultLog × CommonCoin :=
  match c.netinfo.public_key_share sender_id with
  | none => (Except.error Error.unknownSender, c)
  | some pk_i =>
    if ! c.netinfo.pk_verify pk_i share c.nonce then
      (Except.ok (FaultLog.init sender_id FaultKind.unverifiedSignatureShareSender), c)
    else
      match try_output { c with received_shares := mapInsert sender_id share c.received_shares } with
      | (Except.error e, c') => (Except.error e, c')
      | (Except.ok _, c') => (Except.ok FaultLog.new, c')

/-- `CommonCoin::get_coin`: a non-validator only attempts output; a
validator signs the nonce, enqueues the broadcast share and processes its
own share as if received. -/
def get_coin (c : CommonCoin) : Except Error FaultLog × CommonCoin :=
  if ! c.netinfo.is_validator then
    match try_output c with
    | (Except.error e, c') => (Except.error e, c')
    | (Except.ok _, c') => (Except.ok FaultLog.new, c')
  else
    handle_share
      { c with messages := c.messages ++ [c.netinfo.sign c.nonce] }
      c.netinfo.our_uid (c.netinfo.sign c.nonce)

/-- `DistAlgorithm::input` for `CommonCoin`: on the first call set
`had_input` and run `get_coin`; later calls contribute an empty fault log;
either way the call ends in `step`. -/
def input (c : CommonCoin) : Except Error Step × CommonCoin :=
  if ! c.had_input then
    match get_coin { c with had_input := true } with
    | (Except.error e, c') => (Except.error e, c')
    | (Except.ok fl, c') => step c' fl
  else
    step c FaultLog.new

/-- `DistAlgorithm::handle_message(sender_id, message)`: a no-op (empty
fault log) once terminated, otherwise the wrapped share is handled; either
way the call ends in `step`. -/
def handle_message (c : CommonCoin) (sender_id : Nat) (message : CommonCoinMessage) :
    Except Error Step × CommonCoin :=
  if ! c.terminated then
    match handle_share c sender_id message.sig with
    | (Except.error e, c') => (Except.error e, c')
    | (Except.ok fl, c') => step c' fl
  else
    step c FaultLog.new

/-- `DistAlgorithm::next_message`: pops the next queued broadcast. -/
def next_message (c : CommonCoin) : Option Nat × CommonCoin :=
  match c.messages with
  | [] => (none, c)
  | m :: rest => (some m, { c with messages := rest })

/-- The reachable instance states: a fresh instance, or the state left
behind by a successful `input`, `handle_message` or `next_message` call.
(A call returning a fatal error ends the instance: the spec requires the
caller to treat it as aborted, so aborted states are not tracked.) -/
inductive Reachable : CommonCoin → Prop where
  | init : ∀ ni nonce, Reachable (CommonCoin.new ni nonce)
  | do_input : ∀ c s c', Reachable c → input c = (Except.ok s, c') → Reachable c'
  | do_handle : ∀ c sid m s c', Reachable c →
      handle_message c sid m = (Except.ok s, c') → Reachable c'
  | do_next : ∀ c msg c', Reachable c → next_message c = (msg, c') → Reachable c'


/-! ### Derived predicates -/

/-- Well-formedness of a `BTreeMap` model: strictly sorted by key. -/
def SortedKeys (l : List (Nat × Nat)) : Prop :=
  l.Pairwise (fun a b => a.1 < b.1)

/-- The combination guard of `try_output`, as a proposition. -/
def Guard (c : CommonCoin) : Prop :=
  c.had_input = true ∧ c.received_shares.length > c.netinfo.num_faulty

instance (c : CommonCoin) : Decidable (Guard c) := by
  unfold Guard
  infer_instance

/-- The contract of the external threshold-crypto collaborator (spec section 6):
a key-share holder's own signature shares verify against its own declared
public key share.  It is the only crypto assumption any invariant needs. -/
def SignValid (ni : NetworkInfo) : Prop :=
  ∀ n, ni.pk_verify ni.our_uid (ni.sign n) n = true

/-- The invariant of reachable states, minus the emptiness of `output`
(which holds between calls but not in the middle of one). -/
def Inv0 (c : CommonCoin) : Prop :=
  SortedKeys c.received_shares ∧
  c.messages.length ≤ 1 ∧
  (c.had_input = false → c.messages = []) ∧
  (c.terminated = false → SignValid c.netinfo → ¬ Guard c) ∧
  (∀ p ∈ c.received_shares, (c.netinfo.public_key_share p.1).isSome = true) ∧
  (c.terminated = true → c.had_input = true)

/-- The full reachable-state invariant. -/
def Inv (c : CommonCoin) : Prop :=
  c.output = none ∧ Inv0 c

/-! ### Concrete network instances and coin states (used as test inputs) -/

/-- A one-validator committee (n = 1, f = 0); all crypto checks accept. -/
def valNI : NetworkInfo :=
  { our_uid := 0
    all_uids := [0]
    num_faulty := 0
    is_validator := true
    pk_verify := fun _ _ _ => true
    sign := fun n => n + 100
    combine := fun _ => Except.ok 0
    main_verify := fun _ _ => true
    sig_parity := fun _ => true }

/-- The committee of Scenario B (n = 4, f = 1), seen by the observer v4:
not a key-share holder; every share combination yields the unique group
signature 42, whose parity bit is true. -/
def obsNI : NetworkInfo :=
  { our_uid := 4
    all_uids := [0, 1, 2, 3]
    num_faulty := 1
    is_validator := false
    pk_verify := fun _ _ _ => true
    sign := fun n => n
    combine := fun _ => Except.ok 42
    main_verify := fun _ _ => true
    sig_parity := fun s => s % 2 == 0 }

/-- The same committee seen by validator v0 (same crypto engine). -/
def valNI0 : NetworkInfo :=
  { our_uid := 0
    all_uids := [0, 1, 2, 3]
    num_faulty := 1
    is_validator := true
    pk_verify := fun _ _ _ => true
    sign := fun n => n
    combine := fun _ => Except.ok 42
    main_verify := fun _ _ => true
    sig_parity := fun s => s % 2 == 0 }

/-- A committee in which the share value 666 fails verification against
every public key share (used to exercise the invalid-share path). -/
def malNI : NetworkInfo :=
  { our_uid := 0
    all_uids := [0, 1, 2, 3]
    num_faulty := 1
    is_validator := true
    pk_verify := fun _ share _ => share != 666
    sign := fun n => n
    combine := fun _ => Except.ok 42
    main_verify := fun _ _ => true
    sig_parity := fun s => s % 2 == 0 }

/-- The state of the one-validator coin after its `input()` call: it signed
its own share, crossed the threshold 0 + 1 and terminated. -/
def termCoin : CommonCoin := (input (CommonCoin.new valNI 5)).2

/-- The observer of Scenario B after `input()` and one valid share from
v0 (one share is not yet above f = 1). -/
def obsCoin1 : CommonCoin :=
  (handle_message (input (CommonCoin.new obsNI 7)).2 0 (CommonCoinMessage.mk 10)).2


/-! ### Lemmas about the association-list model of `BTreeMap` -/


theorem mem_mapInsert {p : Nat × Nat} {k v : Nat} {l : List (Nat × Nat)}
    (h : p ∈ mapInsert k v l) : p = (k, v) ∨ p ∈ l := by
  induction l with
  | nil => simpa [mapInsert] using h
  | cons hd tl ih =>
    simp only [mapInsert] at h
    split at h
    · simp only [List.mem_cons] at h ⊢
      tauto
    · split at h
      · simp only [List.mem_cons] at h ⊢
        tauto
      · simp only [List.mem_cons] at h ⊢
        rcases h with h | h
        · tauto
        · rcases ih h with h' | h' <;> tauto

theorem sortedKeys_mapInsert {k v : Nat} {l : List (Nat × Nat)}
    (h : SortedKeys l) : SortedKeys (mapInsert k v l) := by
  induction l with
  | nil => simp [mapInsert, SortedKeys]
  | cons hd tl ih =>
    simp only [SortedKeys, List.pairwise_cons] at h
    obtain ⟨hhd, htl⟩ := h
    by_cases h1 : k < hd.1
    · rw [show mapInsert k v (hd :: tl) = (k, v) :: hd :: tl from by
        simp [mapInsert, h1]]
      simp only [SortedKeys, List.pairwise_cons]
      refine ⟨?_, ?_, htl⟩
      · intro b hb
        simp only [List.mem_cons] at hb
        rcases hb with rfl | hb
        · simpa using h1
        · exact lt_trans h1 (hhd b hb)
      · exact hhd
    · by_cases h2 : k = hd.1
      · rw [show mapInsert k v (hd :: tl) = (k, v) :: tl from by
          simp [mapInsert, h1, h2]]
        simp only [SortedKeys, List.pairwise_cons]
        refine ⟨?_, htl⟩
        intro b hb
        simpa [h2] using hhd b hb
      · rw [show mapInsert k v (hd :: tl) = hd :: mapInsert k v tl from by
          simp [mapInsert, h1, h2]]
        simp only [SortedKeys, List.pairwise_cons]
        refine ⟨?_, ih htl⟩
        intro b hb
        rcases mem_mapInsert hb with rfl | hb'
        · simp only []
          omega
        · exact hhd b hb'

theorem mapLookup_some_mem {k v : Nat} {l : List (Nat × Nat)}
    (h : mapLookup k l = some v) : (k, v) ∈ l := by
  induction l with
  | nil => simp [mapLookup] at h
  | cons hd tl ih =>
    simp only [mapLookup] at h
    split at h
    · subst_vars
      simp only [Option.some.injEq] at h
      subst h
      simp
    · exact List.mem_cons_of_mem _ (ih h)

theorem length_mapInsert_of_lookup_some {k v v₀ : Nat} {l : List (Nat × Nat)}
    (hs : SortedKeys l) (h : mapLookup k l = some v₀) :
    (mapInsert k v l).length = l.length := by
  induction l with
  | nil => simp [mapLookup] at h
  | cons hd tl ih =>
    simp only [SortedKeys, List.pairwise_cons] at hs
    obtain ⟨hhd, htl⟩ := hs
    simp only [mapLookup] at h
    simp only [mapInsert]
    split at h
    · subst_vars
      simp [lt_irrefl]
    · have hk : (k, v₀) ∈ tl := mapLookup_some_mem h
      have hlt : hd.1 < k := hhd (k, v₀) hk
      rw [if_neg (by omega), if_neg (by omega)]
      simp [ih htl h]

theorem sortedKeys_keys_nodup {l : List (Nat × Nat)}
    (h : SortedKeys l) : (l.map Prod.fst).Nodup := by
  unfold List.Nodup
  rw [List.pairwise_map]
  exact h.imp (fun hlt => Nat.ne_of_lt hlt)

/-! ### Case-analysis lemmas for the operations -/


theorem try_output_noop {c : CommonCoin} (h : ¬ Guard c) :
    try_output c = (Except.ok (), c) := by
  simp only [try_output, Bool.and_eq_true, decide_eq_true_eq]
  rw [if_neg (by simpa [Guard] using h)]

theorem try_output_ok {c c' : CommonCoin} {u : Unit}
    (h : try_output c = (Except.ok u, c')) :
    (c' = c ∧ ¬ Guard c) ∨
    (∃ sig, combine_and_verify_sig c = Except.ok sig ∧ Guard c ∧
      c' = { c with output := some (c.netinfo.sig_parity sig), terminated := true }) := by
  simp only [try_output, Bool.and_eq_true, decide_eq_true_eq] at h
  by_cases hg : Guard c
  · rw [if_pos (by simpa [Guard] using hg)] at h
    split at h
    · simp at h
    · rename_i sig hsig
      simp only [Prod.mk.injEq] at h
      exact Or.inr ⟨sig, hsig, hg, h.2.symm⟩
  · rw [if_neg (by simpa [Guard] using hg)] at h
    simp only [Prod.mk.injEq] at h
    exact Or.inl ⟨h.2.symm, hg⟩

theorem try_output_guard_ok {c c' : CommonCoin} {u : Unit} {sig : Nat}
    (hg : Guard c) (hsig : combine_and_verify_sig c = Except.ok sig)
    (h : try_output c = (Except.ok u, c')) :
    c' = { c with output := some (c.netinfo.sig_parity sig), terminated := true } := by
  rcases try_output_ok h with ⟨-, hng⟩ | ⟨sig', hsig', -, hc'⟩
  · exact absurd hg hng
  · rw [hsig] at hsig'
    injection hsig' with he
    rw [hc', he]

theorem handle_share_ok {c c' : CommonCoin} {sid share : Nat} {fl : FaultLog}
    (h : handle_share c sid share = (Except.ok fl, c')) :
    ∃ pk, c.netinfo.public_key_share sid = some pk ∧
      ((c.netinfo.pk_verify pk share c.nonce = false ∧
        fl = FaultLog.init sid FaultKind.unverifiedSignatureShareSender ∧ c' = c) ∨
       (c.netinfo.pk_verify pk share c.nonce = true ∧ fl = FaultLog.new ∧
        try_output { c with received_shares := mapInsert sid share c.received_shares } =
          (Except.ok (), c'))) := by
  simp only [handle_share] at h
  split at h
  · simp at h
  · rename_i pk hpk
    refine ⟨pk, hpk, ?_⟩
    by_cases hv : c.netinfo.pk_verify pk share c.nonce = true
    · rw [if_neg (by simp [hv])] at h
      split at h
      · simp at h
      · rename_i u c₁ hto
        simp only [Prod.mk.injEq, Except.ok.injEq] at h
        right
        refine ⟨hv, h.1.symm, ?_⟩
        rw [hto, h.2]
    · rw [if_pos (by simp [Bool.not_eq_true] at hv ⊢; exact hv)] at h
      simp only [Prod.mk.injEq, Except.ok.injEq] at h
      left
      exact ⟨by simpa using hv, h.1.symm, h.2.symm⟩

theorem get_coin_ok {c c' : CommonCoin} {fl : FaultLog}
    (h : get_coin c = (Except.ok fl, c')) :
    (c.netinfo.is_validator = false ∧ fl = FaultLog.new ∧
      try_output c = (Except.ok (), c')) ∨
    (c.netinfo.is_validator = true ∧
      handle_share { c with messages := c.messages ++ [c.netinfo.sign c.nonce] }
        c.netinfo.our_uid (c.netinfo.sign c.nonce) = (Except.ok fl, c')) := by
  simp only [get_coin] at h
  by_cases hv : c.netinfo.is_validator = true
  · rw [if_neg (by simp [hv])] at h
    exact Or.inr ⟨hv, h⟩
  · rw [if_pos (by simp [Bool.not_eq_true] at hv ⊢; exact hv)] at h
    split at h
    · simp at h
    · rename_i u c₁ hto
      simp only [Prod.mk.injEq, Except.ok.injEq] at h
      left
      refine ⟨by simpa using hv, h.1.symm, ?_⟩
      rw [hto, h.2]

theorem input_ok {c c' : CommonCoin} {s : Step}
    (h : input c = (Except.ok s, c')) :
    (c.had_input = true ∧ s = Step.mk c.output.toList FaultLog.new ∧
      c' = { c with output := none }) ∨
    (c.had_input = false ∧ ∃ fl c₁,
      get_coin { c with had_input := true } = (Except.ok fl, c₁) ∧
      s = Step.mk c₁.output.toList fl ∧ c' = { c₁ with output := none }) := by
  simp only [input] at h
  by_cases hi : c.had_input = true
  · rw [if_neg (by simp [hi])] at h
    simp only [step, Prod.mk.injEq, Except.ok.injEq] at h
    exact Or.inl ⟨hi, h.1.symm, h.2.symm⟩
  · rw [if_pos (by simp [Bool.not_eq_true] at hi ⊢; exact hi)] at h
    split at h
    · simp at h
    · rename_i fl c₁ hgc
      simp only [step, Prod.mk.injEq, Except.ok.injEq] at h
      exact Or.inr ⟨by simpa using hi, fl, c₁, hgc, h.1.symm, h.2.symm⟩

theorem handle_message_ok {c c' : CommonCoin} {sid : Nat} {m : CommonCoinMessage} {s : Step}
    (h : handle_message c sid m = (Except.ok s, c')) :
    (c.terminated = true ∧ s = Step.mk c.output.toList FaultLog.new ∧
      c' = { c with output := none }) ∨
    (c.terminated = false ∧ ∃ fl c₁,
      handle_share c sid m.sig = (Except.ok fl, c₁) ∧
      s = Step.mk c₁.output.toList fl ∧ c' = { c₁ with output := none }) := by
  simp only [handle_message] at h
  by_cases ht : c.terminated = true
  · rw [if_neg (by simp [ht])] at h
    simp only [step, Prod.mk.injEq, Except.ok.injEq] at h
    exact Or.inl ⟨ht, h.1.symm, h.2.symm⟩
  · rw [if_pos (by simp [Bool.not_eq_true] at ht ⊢; exact ht)] at h
    split at h
    · simp at h
    · rename_i fl c₁ hhs
      simp only [step, Prod.mk.injEq, Except.ok.injEq] at h
      exact Or.inr ⟨by simpa using ht, fl, c₁, hhs, h.1.symm, h.2.symm⟩

/-! ### The reachable-state invariant -/


theorem public_key_share_eq {ni : NetworkInfo} {id pk : Nat}
    (h : ni.public_key_share id = some pk) : pk = id := by
  simp only [NetworkInfo.public_key_share, Option.map_eq_some'] at h
  obtain ⟨i, -, h⟩ := h
  omega

theorem public_key_share_isSome {ni : NetworkInfo} {id : Nat} :
    (ni.public_key_share id).isSome = (ni.node_index id).isSome := by
  unfold NetworkInfo.public_key_share
  cases ni.node_index id <;> rfl


/-- Behaviour of the `insert`-then-`try_output` tail of `handle_share`:
the state facts that survive it. -/
theorem insert_try_output_facts {c c' : CommonCoin} {sid share : Nat}
    (h : try_output { c with received_shares := mapInsert sid share c.received_shares } =
      (Except.ok (), c'))
    (hs : SortedKeys c.received_shares)
    (hpk : ∀ p ∈ c.received_shares, (c.netinfo.public_key_share p.1).isSome = true)
    (hpks : (c.netinfo.public_key_share sid).isSome = true)
    (hterm : c.terminated = true → c.had_input = true) :
    SortedKeys c'.received_shares ∧
    (∀ p ∈ c'.received_shares, (c'.netinfo.public_key_share p.1).isSome = true) ∧
    (c'.terminated = false → ¬ Guard c') ∧
    (c'.terminated = true → c'.had_input = true) ∧
    c'.netinfo = c.netinfo ∧ c'.nonce = c.nonce ∧
    c'.messages = c.messages ∧ c'.had_input = c.had_input ∧
    c'.received_shares = mapInsert sid share c.received_shares := by
  have hins : ∀ p ∈ mapInsert sid share c.received_shares,
      (c.netinfo.public_key_share p.1).isSome = true := by
    intro p hp
    rcases mem_mapInsert hp with rfl | hp'
    · exact hpks
    · exact hpk p hp'
  rcases try_output_ok h with ⟨rfl, hng⟩ | ⟨sig, -, hg, rfl⟩
  · exact ⟨sortedKeys_mapInsert hs, hins, fun _ => hng, hterm, rfl, rfl, rfl, rfl, rfl⟩
  · refine ⟨sortedKeys_mapInsert hs, hins, by simp, ?_, rfl, rfl, rfl, rfl, rfl⟩
    intro _
    exact hg.1

/-- `handle_message` preserves the invariant. -/
theorem inv_handle_message {c c' : CommonCoin} {sid : Nat} {m : CommonCoinMessage}
    {s : Step} (hi : Inv c) (h : handle_message c sid m = (Except.ok s, c')) :
    Inv c' := by
  obtain ⟨hout, hs, hlen, hmsg0, hg, hpk, hterm⟩ := hi
  rcases handle_message_ok h with ⟨ht, -, rfl⟩ | ⟨ht, fl, c₁, hhs, -, rfl⟩
  · exact ⟨rfl, hs, hlen, hmsg0, hg, hpk, hterm⟩
  · rcases handle_share_ok hhs with ⟨pk, hpks, ⟨-, -, rfl⟩ | ⟨-, -, hto⟩⟩
    · exact ⟨rfl, hs, hlen, hmsg0, hg, hpk, hterm⟩
    · obtain ⟨hs', hpk', hg', hterm', hni, -, hmsg, hin, -⟩ :=
        insert_try_output_facts hto hs hpk (by simp [hpks]) hterm
      refine ⟨rfl, hs', ?_, ?_, fun htf _ => hg' htf, hpk', hterm'⟩
      · simpa [hmsg] using hlen
      · intro hif
        rw [hin] at hif
        simpa [hmsg] using hmsg0 hif

/-- `input` preserves the invariant. -/
theorem inv_input {c c' : CommonCoin} {s : Step}
    (hi : Inv c) (h : input c = (Except.ok s, c')) : Inv c' := by
  obtain ⟨hout, hs, hlen, hmsg0, hg, hpk, hterm⟩ := hi
  rcases input_ok h with ⟨hin, -, rfl⟩ | ⟨hin, fl, c₁, hgc, -, rfl⟩
  · exact ⟨rfl, hs, hlen, hmsg0, hg, hpk, hterm⟩
  · have hmsgnil : c.messages = [] := hmsg0 hin
    have htf : c.terminated = false := by
      cases hcT : c.terminated
      · rfl
      · rw [hterm hcT] at hin
        cases hin
    rcases get_coin_ok hgc with ⟨-, -, hto⟩ | ⟨-, hhs⟩
    · rcases try_output_ok hto with ⟨rfl, hng⟩ | ⟨sig, -, hgd, rfl⟩
      · exact ⟨rfl, hs, hlen, by simp, fun _ _ => hng, hpk, fun _ => rfl⟩
      · exact ⟨rfl, hs, hlen, by simp, by simp, hpk, fun _ => rfl⟩
    · rcases handle_share_ok hhs with ⟨pk, hpks, ⟨hbad, -, rfl⟩ | ⟨-, -, hto⟩⟩
      · refine ⟨rfl, hs, ?_, by simp, ?_, hpk, fun _ => rfl⟩
        · simp [hmsgnil]
        · intro _ hsv
          exfalso
          have hpkid : pk = c.netinfo.our_uid := public_key_share_eq hpks
          rw [hpkid, hsv c.nonce] at hbad
          cases hbad
      · obtain ⟨hs', hpk', hg', hterm', hni, -, hmsg, hin', -⟩ :=
          insert_try_output_facts hto hs hpk
            (by
              show (c.netinfo.public_key_share c.netinfo.our_uid).isSome = true
              rw [hpks]
              rfl)
            (fun _ => rfl)
        refine ⟨rfl, hs', ?_, ?_, fun htf' _ => hg' htf', hpk', hterm'⟩
        · rw [hmsg]
          simp [hmsgnil]
        · intro hif
          rw [hin'] at hif
          simp at hif

/-- `next_message` preserves the invariant. -/
theorem inv_next_message {c c' : CommonCoin} {msg : Option Nat}
    (hi : Inv c) (h : next_message c = (msg, c')) : Inv c' := by
  obtain ⟨hout, hs, hlen, hmsg0, hg, hpk, hterm⟩ := hi
  simp only [next_message] at h
  split at h
  · simp only [Prod.mk.injEq] at h
    rw [← h.2]
    exact ⟨hout, hs, hlen, hmsg0, hg, hpk, hterm⟩
  · rename_i m rest hrest
    simp only [Prod.mk.injEq] at h
    rw [← h.2]
    refine ⟨hout, hs, ?_, ?_, hg, hpk, hterm⟩
    · rw [hrest] at hlen
      simp only [List.length_cons] at hlen
      show rest.length ≤ 1
      omega
    · intro hif
      have := hmsg0 hif
      rw [hrest] at this
      cases this

/-! ### Forward-computation helpers -/

theorem try_output_guard_combine {c : CommonCoin} {sig : Nat}
    (hin : c.had_input = true)
    (hcnt : c.received_shares.length > c.netinfo.num_faulty)
    (hcomb : combine_and_verify_sig c = Except.ok sig) :
    try_output c =
      (Except.ok (),
       { c with output := some (c.netinfo.sig_parity sig), terminated := true }) := by
  simp only [try_output, hin, Bool.true_and, decide_eq_true_eq]
  rw [if_pos hcnt, hcomb]

theorem try_output_guard_error {c : CommonCoin} {e : Error}
    (hin : c.had_input = true)
    (hcnt : c.received_shares.length > c.netinfo.num_faulty)
    (hcomb : combine_and_verify_sig c = Except.error e) :
    try_output c = (Except.error e, c) := by
  simp only [try_output, hin, Bool.true_and, decide_eq_true_eq]
  rw [if_pos hcnt, hcomb]

theorem handle_share_unknown {c : CommonCoin} {sid share : Nat}
    (hpk : c.netinfo.public_key_share sid = none) :
    handle_share c sid share = (Except.error Error.unknownSender, c) := by
  simp only [handle_share, hpk]

theorem handle_share_invalid {c : CommonCoin} {sid share pk : Nat}
    (hpk : c.netinfo.public_key_share sid = some pk)
    (hv : c.netinfo.pk_verify pk share c.nonce = false) :
    handle_share c sid share =
      (Except.ok (FaultLog.init sid FaultKind.unverifiedSignatureShareSender), c) := by
  simp only [handle_share, hpk, hv]
  rfl

theorem handle_share_valid_ok {c c' : CommonCoin} {sid share pk : Nat} {u : Unit}
    (hpk : c.netinfo.public_key_share sid = some pk)
    (hv : c.netinfo.pk_verify pk share c.nonce = true)
    (hto : try_output { c with received_shares := mapInsert sid share c.received_shares } =
      (Except.ok u, c')) :
    handle_share c sid share = (Except.ok FaultLog.new, c') := by
  simp only [handle_share, hpk]
  rw [if_neg (by simp [hv]), hto]

theorem handle_share_valid_error {c c' : CommonCoin} {sid share pk : Nat} {e : Error}
    (hpk : c.netinfo.public_key_share sid = some pk)
    (hv : c.netinfo.pk_verify pk share c.nonce = true)
    (hto : try_output { c with received_shares := mapInsert sid share c.received_shares } =
      (Except.error e, c')) :
    handle_share c sid share = (Except.error e, c') := by
  simp only [handle_share, hpk]
  rw [if_neg (by simp [hv]), hto]

theorem handle_message_terminated {c : CommonCoin} (sid : Nat) (m : CommonCoinMessage)
    (ht : c.terminated = true) :
    handle_message c sid m =
      (Except.ok (Step.mk c.output.toList FaultLog.new), { c with output := none }) := by
  simp only [handle_message]
  rw [if_neg (by simp [ht])]
  rfl

theorem handle_message_share_ok {c c₁ : CommonCoin} {sid : Nat} {m : CommonCoinMessage}
    {fl : FaultLog}
    (ht : c.terminated = false)
    (hhs : handle_share c sid m.sig = (Except.ok fl, c₁)) :
    handle_message c sid m =
      (Except.ok (Step.mk c₁.output.toList fl), { c₁ with output := none }) := by
  simp only [handle_message]
  rw [if_pos (by simp [ht]), hhs]
  rfl

theorem handle_message_share_error {c c₁ : CommonCoin} {sid : Nat} {m : CommonCoinMessage}
    {e : Error}
    (ht : c.terminated = false)
    (hhs : handle_share c sid m.sig = (Except.error e, c₁)) :
    handle_message c sid m = (Except.error e, c₁) := by
  simp only [handle_message]
  rw [if_pos (by simp [ht]), hhs]

theorem input_again {c : CommonCoin} (hi : c.had_input = true) :
    input c =
      (Except.ok (Step.mk c.output.toList FaultLog.new), { c with output := none }) := by
  simp only [input]
  rw [if_neg (by simp [hi])]
  rfl

theorem input_first {c c₁ : CommonCoin} {fl : FaultLog}
    (hi : c.had_input = false)
    (hgc : get_coin { c with had_input := true } = (Except.ok fl, c₁)) :
    input c =
      (Except.ok (Step.mk c₁.output.toList fl), { c₁ with output := none }) := by
  simp only [input]
  rw [if_pos (by simp [hi]), hgc]
  rfl

/-- Every reachable state satisfies the invariant. -/
theorem reachable_inv {c : CommonCoin} (h : Reachable c) : Inv c := by
  induction h with
  | init ni nonce =>
    refine ⟨rfl, ?_, ?_, ?_, ?_, ?_, ?_⟩
    · simp [CommonCoin.new, SortedKeys]
    · simp [CommonCoin.new]
    · simp [CommonCoin.new]
    · intro _ _
      simp [CommonCoin.new, Guard]
    · simp [CommonCoin.new]
    · simp [CommonCoin.new]
  | do_input c s c' _ hstep ih => exact inv_input ih hstep
  | do_handle c sid m s c' _ hstep ih => exact inv_handle_message ih hstep
  | do_next c msg c' _ hstep ih => exact inv_next_message ih hstep

theorem coin_eta {c : CommonCoin} (h : c.output = none) :
    { c with output := none } = c := by
  cases c
  simp_all

/-! ### The specification claims -/

/-- Claim C2 (confirmed): in the attempt-output procedure, whenever
`had_input` is true and the stored-share count exceeds `num_faulty`, the
stored shares are combined and the result is verified against the
aggregate public key and the nonce; if that verification fails the call
returns the fatal error `VerificationFailed`, and if it succeeds the
output is set to the parity of the combined signature and the instance
becomes terminated. -/
theorem claim_c2 (c : CommonCoin) (sig : Nat)
    (hin : c.had_input = true)
    (hcnt : c.received_shares.length > c.netinfo.num_faulty)
    (hcomb : c.netinfo.combine (indexed_shares c) = Except.ok sig) :
    (c.netinfo.main_verify sig c.nonce = false →
      try_output c = (Except.error Error.verificationFailed, c)) ∧
    (c.netinfo.main_verify sig c.nonce = true →
      try_output c =
        (Except.ok (),
         { c with output := some (c.netinfo.sig_parity sig), terminated := true })) := by
  constructor
  · intro hv
    refine try_output_guard_error hin hcnt ?_
    simp only [combine_and_verify_sig, hcomb, hv]
    rfl
  · intro hv
    refine try_output_guard_combine hin hcnt ?_
    simp only [combine_and_verify_sig, hcomb, hv]
    rfl

/-- Witness for C2: a one-validator coin holding its own share combines,
verifies and terminates with the parity bit. -/
theorem claim_c2_witness :
    try_output
        { CommonCoin.new valNI 5 with
            had_input := true
            received_shares := [(0, 105)] } =
      (Except.ok (),
       { CommonCoin.new valNI 5 with
           had_input := true
           received_shares := [(0, 105)]
           output := some true
           terminated := true }) :=
  (claim_c2
    { CommonCoin.new valNI 5 with
        had_input := true
        received_shares := [(0, 105)] }
    0 rfl (by decide) rfl).2 rfl

/-- Claim C3 (confirmed): combination is attempted only when `had_input`
is true and the verified-share count exceeds `num_faulty` (`try_output`
does nothing otherwise), and an `input` or `handle_message` call whose
resulting state fails that guard leaves `terminated` unchanged and
delivers no newly produced output. -/
theorem claim_c3 (c : CommonCoin) :
    (¬ Guard c → try_output c = (Except.ok (), c)) ∧
    (∀ s c', input c = (Except.ok s, c') → ¬ Guard c' →
      c'.terminated = c.terminated ∧ s.output = c.output.toList) ∧
    (∀ sid m s c', handle_message c sid m = (Except.ok s, c') → ¬ Guard c' →
      c'.terminated = c.terminated ∧ s.output = c.output.toList) := by
  refine ⟨try_output_noop, ?_, ?_⟩
  · intro s c' h hng
    rcases input_ok h with ⟨-, rfl, rfl⟩ | ⟨-, fl, c₁, hgc, rfl, rfl⟩
    · exact ⟨rfl, rfl⟩
    · rcases get_coin_ok hgc with ⟨-, -, hto⟩ | ⟨-, hhs⟩
      · rcases try_output_ok hto with ⟨rfl, -⟩ | ⟨sig, -, hg, rfl⟩
        · exact ⟨rfl, rfl⟩
        · exact absurd hg (fun hg' => hng ⟨hg'.1, hg'.2⟩)
      · rcases handle_share_ok hhs with ⟨pk, -, ⟨-, -, rfl⟩ | ⟨-, -, hto⟩⟩
        · exact ⟨rfl, rfl⟩
        · rcases try_output_ok hto with ⟨rfl, -⟩ | ⟨sig, -, hg, rfl⟩
          · exact ⟨rfl, rfl⟩
          · exact absurd hg (fun hg' => hng ⟨hg'.1, hg'.2⟩)
  · intro sid m s c' h hng
    rcases handle_message_ok h with ⟨ht, rfl, rfl⟩ | ⟨ht, fl, c₁, hhs, rfl, rfl⟩
    · exact ⟨rfl, rfl⟩
    · rcases handle_share_ok hhs with ⟨pk, -, ⟨-, -, rfl⟩ | ⟨-, -, hto⟩⟩
      · exact ⟨rfl, rfl⟩
      · rcases try_output_ok hto with ⟨rfl, -⟩ | ⟨sig, -, hg, rfl⟩
        · exact ⟨rfl, rfl⟩
        · exact absurd hg (fun hg' => hng ⟨hg'.1, hg'.2⟩)

/-- Witness for C3: on a fresh observer coin the guard fails, `try_output`
is the identity, and a below-threshold `handle_message` leaves
`terminated` unchanged. -/
theorem claim_c3_witness :
    (try_output (CommonCoin.new obsNI 7) = (Except.ok (), CommonCoin.new obsNI 7)) ∧
    (handle_message (CommonCoin.new obsNI 7) 0 (CommonCoinMessage.mk 10)).2.terminated =
      (CommonCoin.new obsNI 7).terminated := by
  constructor
  · exact (claim_c3 (CommonCoin.new obsNI 7)).1 (by decide)
  · exact ((claim_c3 (CommonCoin.new obsNI 7)).2.2 0 (CommonCoinMessage.mk 10)
      (Step.mk [] FaultLog.new)
      (handle_message (CommonCoin.new obsNI 7) 0 (CommonCoinMessage.mk 10)).2
      (by rfl) (by decide)).1

/-- Claim C4 (confirmed): on a reachable terminated instance,
`handle_message` succeeds for every sender and message with an empty
result (no output, no faults, no error — even for a sender with no known
public key share) and leaves the entire state unchanged. -/
theorem claim_c4 (c : CommonCoin) (hr : Reachable c) (ht : c.terminated = true)
    (sid : Nat) (m : CommonCoinMessage) :
    handle_message c sid m = (Except.ok (Step.mk [] FaultLog.new), c) := by
  obtain ⟨hout, -⟩ := reachable_inv hr
  rw [handle_message_terminated sid m ht, hout, coin_eta hout]
  rfl

/-- Witness for C4: the terminated one-validator coin ignores a message
from the unknown sender 9. -/
theorem claim_c4_witness :
    handle_message termCoin 9 (CommonCoinMessage.mk 3) =
      (Except.ok (Step.mk [] FaultLog.new), termCoin) := by
  refine claim_c4 termCoin ?_ (by rfl) 9 (CommonCoinMessage.mk 3)
  exact Reachable.do_input (CommonCoin.new valNI 5) (Step.mk [true] FaultLog.new)
    termCoin (Reachable.init valNI 5) (by rfl)

/-- Claim C5 (confirmed): on a non-terminated instance, a message from a
sender with no known public key share fails with the fatal `UnknownSender`
error and leaves the whole state — in particular the stored-share set —
unchanged. -/
theorem claim_c5 (c : CommonCoin) (sid : Nat) (m : CommonCoinMessage)
    (ht : c.terminated = false)
    (hpk : c.netinfo.public_key_share sid = none) :
    handle_message c sid m = (Except.error Error.unknownSender, c) :=
  handle_message_share_error ht (handle_share_unknown hpk)

/-- Witness for C5: the fresh observer coin rejects sender 9, which is not
in the committee. -/
theorem claim_c5_witness :
    handle_message (CommonCoin.new obsNI 7) 9 (CommonCoinMessage.mk 3) =
      (Except.error Error.unknownSender, CommonCoin.new obsNI 7) :=
  claim_c5 (CommonCoin.new obsNI 7) 9 (CommonCoinMessage.mk 3) rfl rfl

/-- Claim C6 (confirmed): on a non-terminated instance, a message from a
known sender whose share fails verification returns successfully with
exactly the one fault record `(sender, UnverifiedSignatureShareSender)`,
stores nothing and attempts no output: apart from the delivery of any
pending output, the state is unchanged. -/
theorem claim_c6 (c : CommonCoin) (sid : Nat) (m : CommonCoinMessage) (pk : Nat)
    (ht : c.terminated = false)
    (hpk : c.netinfo.public_key_share sid = some pk)
    (hv : c.netinfo.pk_verify pk m.sig c.nonce = false) :
    handle_message c sid m =
      (Except.ok (Step.mk c.output.toList
        (FaultLog.init sid FaultKind.unverifiedSignatureShareSender)),
       { c with output := none }) :=
  handle_message_share_ok ht (handle_share_invalid hpk hv)

/-- Witness for C6: the share value 666 fails verification, producing one
fault record for sender 1 and changing nothing else. -/
theorem claim_c6_witness :
    handle_message (CommonCoin.new malNI 7) 1 (CommonCoinMessage.mk 666) =
      (Except.ok (Step.mk []
        (FaultLog.init 1 FaultKind.unverifiedSignatureShareSender)),
       CommonCoin.new malNI 7) :=
  claim_c6 (CommonCoin.new malNI 7) 1 (CommonCoinMessage.mk 666) 1 rfl rfl rfl

theorem termCoin_reachable : Reachable termCoin :=
  Reachable.do_input (CommonCoin.new valNI 5) (Step.mk [true] FaultLog.new)
    termCoin (Reachable.init valNI 5) (by rfl)

theorem obsCoin1_reachable : Reachable obsCoin1 :=
  Reachable.do_handle (input (CommonCoin.new obsNI 7)).2 0 (CommonCoinMessage.mk 10)
    (Step.mk [] FaultLog.new) obsCoin1
    (Reachable.do_input (CommonCoin.new obsNI 7) (Step.mk [] FaultLog.new)
      (input (CommonCoin.new obsNI 7)).2 (Reachable.init obsNI 7) (by rfl))
    (by rfl)

/-- Claim C7 (confirmed): `input` is idempotent — once `had_input` is set,
every further `input` call enqueues no broadcast message, records no
faults, and only delivers (without recomputing) any pending output;
moreover at most one broadcast is ever enqueued in any reachable state. -/
theorem claim_c7 :
    (∀ c : CommonCoin, c.had_input = true →
      input c =
        (Except.ok (Step.mk c.output.toList FaultLog.new), { c with output := none })) ∧
    (∀ c : CommonCoin, Reachable c → c.messages.length ≤ 1) := by
  constructor
  · intro c hi
    exact input_again hi
  · intro c hr
    exact (reachable_inv hr).2.2.1

/-- Witness for C7: a second `input` on the one-validator coin that already
had input changes nothing, and a fresh coin has at most one queued message. -/
theorem claim_c7_witness :
    input { CommonCoin.new valNI 5 with had_input := true } =
      (Except.ok (Step.mk [] FaultLog.new),
       { CommonCoin.new valNI 5 with had_input := true }) ∧
    (CommonCoin.new valNI 5).messages.length ≤ 1 :=
  ⟨claim_c7.1 { CommonCoin.new valNI 5 with had_input := true } rfl,
   claim_c7.2 (CommonCoin.new valNI 5) (Reachable.init valNI 5)⟩

/-- Claim C9 (confirmed): the output bit is delivered exactly once — the
call during which combination first succeeds returns a step carrying the
bit, every successful call leaves the stored output empty (`step` takes
it), and on a reachable terminated instance every later call returns an
empty step with the state unchanged. -/
theorem claim_c9 :
    (∀ c sid m s c', handle_message c sid m = (Except.ok s, c') →
      c.terminated = false → c'.terminated = true → ∃ b, s.output = [b]) ∧
    (∀ c s c', input c = (Except.ok s, c') →
      c.terminated = false → c'.terminated = true → ∃ b, s.output = [b]) ∧
    (∀ c sid m s c', handle_message c sid m = (Except.ok s, c') → c'.output = none) ∧
    (∀ c s c', input c = (Except.ok s, c') → c'.output = none) ∧
    (∀ c, Reachable c → c.terminated = true →
      (∀ sid m, handle_message c sid m = (Except.ok (Step.mk [] FaultLog.new), c)) ∧
      input c = (Except.ok (Step.mk [] FaultLog.new), c)) := by
  refine ⟨?_, ?_, ?_, ?_, ?_⟩
  · intro c sid m s c' h ht ht'
    rcases handle_message_ok h with ⟨htT, rfl, rfl⟩ | ⟨-, fl, c₁, hhs, rfl, rfl⟩
    · rw [htT] at ht
      cases ht
    · rcases handle_share_ok hhs with ⟨pk, -, ⟨-, -, rfl⟩ | ⟨-, -, hto⟩⟩
      · simp only [ht] at ht'
        cases ht'
      · rcases try_output_ok hto with ⟨rfl, -⟩ | ⟨sig, -, -, rfl⟩
        · simp only [ht] at ht'
          cases ht'
        · exact ⟨_, rfl⟩
  · intro c s c' h ht ht'
    rcases input_ok h with ⟨-, rfl, rfl⟩ | ⟨-, fl, c₁, hgc, rfl, rfl⟩
    · simp only [ht] at ht'
      cases ht'
    · rcases get_coin_ok hgc with ⟨-, -, hto⟩ | ⟨-, hhs⟩
      · rcases try_output_ok hto with ⟨rfl, -⟩ | ⟨sig, -, -, rfl⟩
        · simp only [ht] at ht'
          cases ht'
        · exact ⟨_, rfl⟩
      · rcases handle_share_ok hhs with ⟨pk, -, ⟨-, -, rfl⟩ | ⟨-, -, hto⟩⟩
        · simp only [ht] at ht'
          cases ht'
        · rcases try_output_ok hto with ⟨rfl, -⟩ | ⟨sig, -, -, rfl⟩
          · simp only [ht] at ht'
            cases ht'
          · exact ⟨_, rfl⟩
  · intro c sid m s c' h
    rcases handle_message_ok h with ⟨-, -, rfl⟩ | ⟨-, fl, c₁, -, -, rfl⟩ <;> rfl
  · intro c s c' h
    rcases input_ok h with ⟨-, -, rfl⟩ | ⟨-, fl, c₁, -, -, rfl⟩ <;> rfl
  · intro c hr ht
    obtain ⟨hout, -, -, -, -, -, hterm⟩ := reachable_inv hr
    constructor
    · intro sid m
      rw [handle_message_terminated sid m ht, hout, coin_eta hout]
      rfl
    · rw [input_again (hterm ht), hout, coin_eta hout]
      rfl

/-- Witness for C9: the crossing call on the observer clears the stored
output, and the terminated one-validator coin returns empty steps forever. -/
theorem claim_c9_witness :
    (handle_message obsCoin1 1 (CommonCoinMessage.mk 11)).2.output = none ∧
    input termCoin = (Except.ok (Step.mk [] FaultLog.new), termCoin) :=
  ⟨claim_c9.2.2.1 obsCoin1 1 (CommonCoinMessage.mk 11)
    (Step.mk [true] FaultLog.new)
    (handle_message obsCoin1 1 (CommonCoinMessage.mk 11)).2 (by rfl),
   (claim_c9.2.2.2.2 termCoin termCoin_reachable (by rfl)).2⟩

/-- Claim C10 (confirmed): in every reachable state every sender with a
stored share has a known public key share and hence a known committee
index, so the index lookup of `combine_and_verify_sig` always succeeds and
the modelled `unwrap` never falls back. -/
theorem claim_c10 (c : CommonCoin) (hr : Reachable c) :
    ∀ p ∈ c.received_shares,
      (c.netinfo.public_key_share p.1).isSome = true ∧
      (c.netinfo.node_index p.1).isSome = true := by
  obtain ⟨-, -, -, -, -, hpk, -⟩ := reachable_inv hr
  intro p hp
  have h1 := hpk p hp
  refine ⟨h1, ?_⟩
  rw [← public_key_share_isSome]
  exact h1

/-- Witness for C10: the observer's stored sender 0 has both a public key
share and a committee index. -/
theorem claim_c10_witness :
    (obsCoin1.netinfo.public_key_share 0).isSome = true ∧
    (obsCoin1.netinfo.node_index 0).isSome = true :=
  claim_c10 obsCoin1 obsCoin1_reachable (0, 10) (by decide)

/-- Claim C8 (confirmed): reachable stored-share sets hold at most one
share per sender, and on a non-terminated instance a second valid share
from an already-stored sender silently overwrites the old one: the call
succeeds with no fault record and the share count does not grow.
(`SignValid` is the external crypto engine's contract — a key-share
holder's own signatures verify; it rules out a degenerate state in which
the overwriting call would also be the first to attempt combination.) -/
theorem claim_c8 (c : CommonCoin) (hr : Reachable c) (hsv : SignValid c.netinfo) :
    (c.received_shares.map Prod.fst).Nodup ∧
    (∀ sid old pk m, c.terminated = false →
      mapLookup sid c.received_shares = some old →
      c.netinfo.public_key_share sid = some pk →
      c.netinfo.pk_verify pk m c.nonce = true →
      handle_message c sid (CommonCoinMessage.mk m) =
        (Except.ok (Step.mk [] FaultLog.new),
         { c with received_shares := mapInsert sid m c.received_shares }) ∧
      (mapInsert sid m c.received_shares).length = c.received_shares.length) := by
  obtain ⟨hout, hs, -, -, hg, -, -⟩ := reachable_inv hr
  refine ⟨sortedKeys_keys_nodup hs, ?_⟩
  intro sid old pk m ht hlk hpk hv
  have hng : ¬ Guard c := hg ht hsv
  have hlen : (mapInsert sid m c.received_shares).length = c.received_shares.length :=
    length_mapInsert_of_lookup_some hs hlk
  have hng' : ¬ Guard { c with received_shares := mapInsert sid m c.received_shares } := by
    intro hgx
    have h2 : (mapInsert sid m c.received_shares).length > c.netinfo.num_faulty := hgx.2
    exact hng ⟨hgx.1, by omega⟩
  have hto := try_output_noop hng'
  have hhs := handle_share_valid_ok hpk hv hto
  have hm := handle_message_share_ok (m := CommonCoinMessage.mk m) ht hhs
  refine ⟨?_, hlen⟩
  rw [hm]
  have he : ({ c with received_shares := mapInsert sid m c.received_shares } :
      CommonCoin).output = none := hout
  rw [coin_eta he, he]
  rfl

/-- Witness for C8: resending a share for sender 0 on the observer
overwrites silently and keeps the count at one. -/
theorem claim_c8_witness :
    (handle_message obsCoin1 0 (CommonCoinMessage.mk 20) =
      (Except.ok (Step.mk [] FaultLog.new),
       { obsCoin1 with received_shares := mapInsert 0 20 obsCoin1.received_shares }) ∧
    (mapInsert 0 20 obsCoin1.received_shares).length = obsCoin1.received_shares.length) :=
  (claim_c8 obsCoin1 obsCoin1_reachable (fun _ => rfl)).2 0 10 0 20 rfl rfl rfl rfl

/-- Claim C1 (corrected): an observer that never calls `input()` does NOT
terminate (see the counterexample), because `try_output` requires
`had_input`.  Amended: an observer that has called `input()` — observers
sign and broadcast nothing — terminates on the `handle_message` call that
brings the valid-share count above `num_faulty` and outputs the parity of
the combined group signature; every instance whose combination yields the
same signature (the scheme's uniqueness property) outputs the same bit. -/
theorem claim_c1_amended (c : CommonCoin) (sid m pk sig : Nat)
    (_hobs : c.netinfo.is_validator = false)
    (hin : c.had_input = true)
    (ht : c.terminated = false)
    (hpk : c.netinfo.public_key_share sid = some pk)
    (hv : c.netinfo.pk_verify pk m c.nonce = true)
    (hcnt : (mapInsert sid m c.received_shares).length > c.netinfo.num_faulty)
    (hcomb : combine_and_verify_sig
      { c with received_shares := mapInsert sid m c.received_shares } = Except.ok sig) :
    (handle_message c sid (CommonCoinMessage.mk m) =
      (Except.ok (Step.mk [c.netinfo.sig_parity sig] FaultLog.new),
       { c with
           received_shares := mapInsert sid m c.received_shares
           output := none
           terminated := true })) ∧
    (∀ d : CommonCoin, d.netinfo.sig_parity = c.netinfo.sig_parity →
      d.had_input = true → d.received_shares.length > d.netinfo.num_faulty →
      combine_and_verify_sig d = Except.ok sig →
      try_output d =
        (Except.ok (),
         { d with output := some (c.netinfo.sig_parity sig), terminated := true })) := by
  constructor
  · have hto : try_output { c with received_shares := mapInsert sid m c.received_shares } =
        (Except.ok (),
         { c with
             received_shares := mapInsert sid m c.received_shares
             output := some (c.netinfo.sig_parity sig)
             terminated := true }) := try_output_guard_combine hin hcnt hcomb
    have hhs := handle_share_valid_ok hpk hv hto
    exact handle_message_share_ok (m := CommonCoinMessage.mk m) ht hhs
  · intro d hpar hdin hdcnt hdcomb
    have hd := try_output_guard_combine hdin hdcnt hdcomb
    rw [hpar] at hd
    exact hd

/-- Counterexample to C1 as stated: the observer v4 (no key share) never
calls `input()`; after receiving valid shares from v0 and v1 — two shares,
strictly more than f = 1 — it is still not terminated and has produced no
output. -/
theorem claim_c1_counterexample :
    (handle_message
        (handle_message (CommonCoin.new obsNI 7) 0 (CommonCoinMessage.mk 10)).2
        1 (CommonCoinMessage.mk 11)).2.terminated = false ∧
    (handle_message
        (handle_message (CommonCoin.new obsNI 7) 0 (CommonCoinMessage.mk 10)).2
        1 (CommonCoinMessage.mk 11)).2.received_shares.length = obsNI.num_faulty + 1 ∧
    (handle_message
        (handle_message (CommonCoin.new obsNI 7) 0 (CommonCoinMessage.mk 10)).2
        1 (CommonCoinMessage.mk 11)).1 = Except.ok (Step.mk [] FaultLog.new) ∧
    (handle_message (CommonCoin.new obsNI 7) 0 (CommonCoinMessage.mk 10)).1 =
      Except.ok (Step.mk [] FaultLog.new) :=
  ⟨rfl, rfl, rfl, rfl⟩

/-- Witness for C1 (amended): the observer that called `input()` crosses
the threshold on v1's share, terminates with bit `true` (parity of the
group signature 42), and validator v0's instance outputs the same bit. -/
theorem claim_c1_witness :
    handle_message obsCoin1 1 (CommonCoinMessage.mk 11) =
      (Except.ok (Step.mk [true] FaultLog.new),
       { obsCoin1 with
           received_shares := mapInsert 1 11 obsCoin1.received_shares
           output := none
           terminated := true }) ∧
    try_output
        { CommonCoin.new valNI0 5 with
            had_input := true
            received_shares := [(0, 100), (1, 101)] } =
      (Except.ok (),
       { CommonCoin.new valNI0 5 with
           had_input := true
           received_shares := [(0, 100), (1, 101)]
           output := some true
           terminated := true }) := by
  have h := claim_c1_amended obsCoin1 1 11 1 42 rfl rfl rfl rfl rfl (by decide) rfl
  refine ⟨h.1, ?_⟩
  exact h.2
    { CommonCoin.new valNI0 5 with
        had_input := true
        received_shares := [(0, 100), (1, 101)] }
    rfl rfl (by decide) rfl

end HB
